import Mathlib

/-!
Verification of the Tarneeb rules engine (`game.py` / `model.py`).

The Python source is shallowly embedded: pure fragments become Lean
functions, the interactive loops become step functions over explicit
state, and Python's fallible operations (`list.pop`, indexing) return
`Option`.  Suits and ranks are the finite string codes used by the
source, rendered as inductive types.
-/

namespace Tarneeb

/-- The four suit codes "h", "d", "c", "s" used throughout the source. -/
inductive Suit
  | h | d | c | s
deriving DecidableEq, Repr, Fintype

/-- The thirteen rank codes "2" .. "10", "J", "Q", "K", "A". -/
inductive Rank
  | two | three | four | five | six | seven | eight | nine | ten
  | jack | queen | king | ace
deriving DecidableEq, Repr, Fintype

/-- `Card` from `game.py`: an immutable (suit, rank) pair. -/
structure Card where
  suit : Suit
  rank : Rank
deriving DecidableEq, Repr, Fintype

/-- `_cardSortKey` / `rankOrder` dictionary: "2" ↦ 1 … "A" ↦ 13. -/
def cardSortKey (c : Card) : Nat :=
  match c.rank with
  | .two => 1 | .three => 2 | .four => 3 | .five => 4 | .six => 5
  | .seven => 6 | .eight => 7 | .nine => 8 | .ten => 9
  | .jack => 10 | .queen => 11 | .king => 12 | .ace => 13

/-- `suitOrder` dictionary in `Player.organizeHand`: h=0, s=1, d=2, c=3. -/
def suitOrderKey (su : Suit) : Nat :=
  match su with
  | .h => 0 | .s => 1 | .d => 2 | .c => 3

/-- The sort key comparison used by `Player.organizeHand`:
Python tuple order on `(suitOrder[card.suit], -cardSortKey(card))`. -/
def organizeLe (a b : Card) : Prop :=
  suitOrderKey a.suit < suitOrderKey b.suit ∨
    (suitOrderKey a.suit = suitOrderKey b.suit ∧ cardSortKey b ≤ cardSortKey a)

instance : DecidableRel organizeLe := fun a b => by
  unfold organizeLe; infer_instance

/-- `Player.organizeHand`: a stable sort of the hand by `organizeLe`
(Python's `sorted` is stable; insertion sort is the matching stable sort). -/
def organizeHand (hand : List Card) : List Card :=
  List.insertionSort organizeLe hand

/-- `Deck.__init__`: the 52-card product, suit-major in source order
(h, d, c, s), rank-minor in source order (2 .. A). -/
def fullDeck : List Card :=
  ([.h, .d, .c, .s] : List Suit).flatMap fun su =>
    ([.two, .three, .four, .five, .six, .seven, .eight, .nine, .ten,
      .jack, .queen, .king, .ace] : List Rank).map fun r => ⟨su, r⟩

/-- `Deck.deal`: Python slicing `cards[:n]` / `cards[n:]`, i.e. take / drop.
Returns (dealt cards, remaining deck). -/
def deal (cards : List Card) (numCards : Nat) : List Card × List Card :=
  (cards.take numCards, cards.drop numCards)

/-- Python's index adjustment for sequence operations: a negative index
counts from the end of a sequence of length `len`. -/
def pyIndex (len : Nat) (i : Int) : Int :=
  if i < 0 then i + len else i

/-- `Player.playCard` is `self.hand.pop(cardIndex)` where `cardIndex` is an
arbitrary Python `int`: the adjusted index must land in `[0, len)`, the card
there is removed and returned; otherwise `pop` raises `IndexError`, modelled
as `none`. -/
def playCard (hand : List Card) (cardIndex : Int) : Option (Card × List Card) :=
  if 0 ≤ pyIndex hand.length cardIndex ∧ pyIndex hand.length cardIndex < hand.length then
    match hand[(pyIndex hand.length cardIndex).toNat]? with
    | some c =>
      some (c, hand.take (pyIndex hand.length cardIndex).toNat ++
        hand.drop ((pyIndex hand.length cardIndex).toNat + 1))
    | none => none
  else
    none

/-- `TarneebGame._getCardValue`.  In the source `self.trump` and
`self.firstPlayedSuit` are `None` until set, so they are `Option Suit` here;
the comparison `card.suit == self.trump` is the `some`-wrapped equality. -/
def getCardValue (trump firstPlayedSuit : Option Suit) (card : Card) : Nat :=
  let value := cardSortKey card
  if some card.suit = trump then 2 * value
  else if some card.suit = firstPlayedSuit then value
  else 0

/-- One entry of `self.playedCards`: the dict `{"card": card, "player": player}`,
with the player identified by name as the source does. -/
structure PlayedCard where
  card : Card
  player : String
deriving DecidableEq, Repr

/-- `TarneebGame.determineWinner`: maximum of the card values, then the played
card at the first index attaining it (`cardValues.index(max(cardValues))`).
Python's `max` on an empty list raises, modelled as `none`. -/
def determineWinner (trump firstPlayedSuit : Option Suit)
    (playedCards : List PlayedCard) : Option PlayedCard :=
  let cardValues :=
    playedCards.map fun p => getCardValue trump firstPlayedSuit p.card
  match cardValues.max? with
  | none => none
  | some m => playedCards[cardValues.indexOf m]?

/-- Outcome of one bidding interaction for one player, as distinguished by
`TarneebGame.getBids`: the response is recorded as the new running highest
bid, or the player passes, or the response is rejected and the same player
is re-prompted with the bid state unchanged. -/
inductive BidOutcome
  | recorded (newHighest : Nat)
  | passed
  | rejected
deriving DecidableEq, Repr

/-- The validation layer of `TarneebGame.getBid` applied to one response.
A response is `none` for the empty input (a pass) or `some v` for a numeric
entry.  `getBid` returns a pass immediately, returns `v` when `7 <= v <= 13`,
and otherwise stays in its loop re-prompting (`none` here). -/
def getBidFilter (response : Option Nat) : Option (Option Nat) :=
  match response with
  | none => some none
  | some v => if 7 ≤ v ∧ v ≤ 13 then some (some v) else none

/-- The loop body of `TarneebGame.getBids` applied to one value that passed
`getBid`: `if highestBid and bid and highestBid >= bid` re-prompts; otherwise
the bid is recorded when `bid and (not highestBid or bid > highestBid)`,
else it is a pass.  (`highestBid` and `bid` lie in 7..13 when present, so
Python truthiness coincides with being `some`.) -/
def getBidsStep (highestBid : Option Nat) (bid : Option Nat) : BidOutcome :=
  match bid with
  | none => .passed
  | some v =>
    match highestBid with
    | none => .recorded v
    | some hb => if hb ≥ v then .rejected else .recorded v

/-- One full bidding interaction: `getBid` filtering followed by the
`getBids` loop body.  A rejection at either layer re-prompts the same
player and leaves the bid state unchanged. -/
def bidInteraction (highestBid : Option Nat) (response : Option Nat) : BidOutcome :=
  match getBidFilter response with
  | none => .rejected
  | some bid => getBidsStep highestBid bid

/-- The running highest bid after one bidding interaction: only a recorded
bid replaces it. -/
def bidStateAfter (highestBid : Option Nat) (out : BidOutcome) : Option Nat :=
  match out with
  | .recorded v => some v
  | _ => highestBid

/-- The acceptance test of `TarneebGame.getCardsFromPlayer` for a candidate
card: the leader (`i = 0`) may play anything; a follower must match
`firstPlayedSuit` when it occurs in `allSuitsInPlayersHand` (the set of suits
of the player's hand), and may play anything otherwise.  `false` means the
loop prints an error and re-prompts the same player with the hand untouched. -/
def cardAccepted (i : Nat) (firstPlayedSuit : Suit) (hand : List Card)
    (card : Card) : Bool :=
  if i = 0 then true
  else if hand.any fun c => c.suit = firstPlayedSuit then
    card.suit = firstPlayedSuit
  else true

/-- The team index chosen by `TarneebGame.playGame`: `n = 0` unless the bid
winner's name is not in `["Player 1", "Player 3"]`, in which case `n = 1`. -/
def teamIndex (bidWinner : String) : Fin 2 :=
  if bidWinner = "Player 1" ∨ bidWinner = "Player 3" then 0 else 1

/-- The end-of-deal score update in `TarneebGame.playGame`: with `n` the
bidding team and `N` the other team, if `curScores[n] >= highestBid` then
`scores[n] += curScores[n]`, else `scores[n] -= highestBid` and
`scores[N] += curScores[N]`. -/
def applyDealScore (scores : Fin 2 → Int) (curScores : Fin 2 → Int)
    (bidWinner : String) (highestBid : Int) : Fin 2 → Int :=
  let n := teamIndex bidWinner
  let N : Fin 2 := 1 - n
  if curScores n ≥ highestBid then
    Function.update scores n (scores n + curScores n)
  else
    Function.update (Function.update scores n (scores n - highestBid)) N
      (scores N + curScores N)

/-- One card handed out inside `TarneebGame.dealDeck`: refill with the next
freshly shuffled deck when the current deck is empty
(`if not self.deck.cards: self.deck = Deck(); self.deck.shuffle()`), then
`self.deck.deal(1)[0]`.  `fresh k` is the k-th shuffled replacement deck;
`none` marks the impossible underflow of a freshly built deck. -/
def dealOne (deck : List Card) (fresh : Nat → List Card) (k : Nat) :
    Option (Card × List Card × Nat) :=
  let next := if deck.isEmpty then (fresh k, k + 1) else (deck, k)
  match next.1 with
  | [] => none
  | c :: rest => some (c, rest, next.2)

/-- The inner loop of `TarneebGame.dealDeck`: one pass over the players in
seat order, appending one dealt card to each hand. -/
def dealPass (hands : List (List Card)) (deck : List Card)
    (fresh : Nat → List Card) (k : Nat) :
    Option (List (List Card) × List Card × Nat) :=
  match hands with
  | [] => some ([], deck, k)
  | hand :: rest =>
    match dealOne deck fresh k with
    | none => none
    | some (c, deck', k') =>
      match dealPass rest deck' fresh k' with
      | none => none
      | some (rest', deck'', k'') => some ((hand ++ [c]) :: rest', deck'', k'')

/-- The outer loop of `TarneebGame.dealDeck`: `for _ in range(13)` passes. -/
def dealRounds (n : Nat) (hands : List (List Card)) (deck : List Card)
    (fresh : Nat → List Card) (k : Nat) :
    Option (List (List Card) × List Card × Nat) :=
  match n with
  | 0 => some (hands, deck, k)
  | n' + 1 =>
    match dealPass hands deck fresh k with
    | none => none
    | some (hands', deck', k') => dealRounds n' hands' deck' fresh k'

/-- `TarneebGame.dealDeck`: clear every hand (`cleanHands`), deal 13 passes,
then `organizeHand` every hand. -/
def dealDeck (hands : List (List Card)) (deck : List Card)
    (fresh : Nat → List Card) (k : Nat) :
    Option (List (List Card) × List Card × Nat) :=
  match dealRounds 13 (hands.map fun _ => []) deck fresh k with
  | none => none
  | some (hands', deck', k') => some (hands'.map organizeHand, deck', k')

/-- The deal-scoped state touched by the all-pass branch of
`TarneebGame.getBids`: the match scores, the hands and the deck. -/
structure GameSt where
  scores : Fin 2 → Int
  hands : List (List Card)
  deck : List Card
deriving Repr

/-- The no-bidder branch of `TarneebGame.getBids`
(`if not self.highestBid["bid"]`): when the running highest bid is `none`
after all four players responded, the engine re-deals via `dealDeck`; the
match scores are not mentioned by that branch. -/
def noBidRedeal (highestBid : Option Nat) (st : GameSt)
    (fresh : Nat → List Card) (k : Nat) : Option (GameSt × Nat) :=
  if highestBid = none then
    match dealDeck st.hands st.deck fresh k with
    | none => none
    | some (hands', deck', k') =>
      some ({ st with hands := hands', deck := deck' }, k')
  else
    some (st, k)

/-- The `rank_value` table as worded by the spec (§4.4, claim C2):
2..10 map to 1..9, Jack=10, Queen=11, King=12, Ace=13. -/
def rankValueSpec (c : Card) : Nat :=
  match c.rank with
  | .two => 1 | .three => 2 | .four => 3 | .five => 4 | .six => 5
  | .seven => 6 | .eight => 7 | .nine => 8 | .ten => 9
  | .jack => 10 | .queen => 11 | .king => 12 | .ace => 13

/-- The card-value formula as worded by the spec (§4.4, claim C2):
`rank_value * 2` on trump, `rank_value` on the lead suit when the lead suit
is not trump, `0` otherwise. -/
def cardValueSpec (trump leadSuit : Suit) (c : Card) : Nat :=
  if c.suit = trump then 2 * rankValueSpec c
  else if c.suit = leadSuit ∧ leadSuit ≠ trump then rankValueSpec c
  else 0

/-- C2: for every trump suit, lead suit and card, the value the engine uses
for winner determination (`TarneebGame._getCardValue`) equals the spec's
formula: doubled rank value on trump, plain rank value on a non-trump lead
suit, zero otherwise, with the rank table 2..10 ↦ 1..9, J=10, Q=11, K=12,
A=13. -/
theorem getCardValue_eq_spec :
    ∀ (trump leadSuit : Suit) (c : Card),
      getCardValue (some trump) (some leadSuit) c = cardValueSpec trump leadSuit c := by
  decide

/-- C1 counterexample: in the trick with trump=spades, lead=hearts and cards
Player1=(hearts,10), Player2=(spades,2), Player3=(hearts,King),
Player4=(clubs,Ace), the engine does NOT pick Player2's low trump: the values
are 9, 4, 12, 0, so the maximum is Player3's King of hearts. -/
theorem lowTrumpWinCounterexample :
    determineWinner (some .s) (some .h)
      [⟨⟨.h, .ten⟩, "Player 1"⟩, ⟨⟨.s, .two⟩, "Player 2"⟩,
       ⟨⟨.h, .king⟩, "Player 3"⟩, ⟨⟨.c, .ace⟩, "Player 4"⟩] ≠
      some ⟨⟨.s, .two⟩, "Player 2"⟩ := by
  decide

/-- C1 amended: in that trick the winner determined by the engine is Player3
with the King of hearts — a trump card beats a non-trump card only when its
doubled rank value exceeds the lead-suit card's rank value, and
2 * rank(2) = 2 < 12 = rank(King). -/
theorem lowTrumpLosesToHighLead :
    determineWinner (some .s) (some .h)
      [⟨⟨.h, .ten⟩, "Player 1"⟩, ⟨⟨.s, .two⟩, "Player 2"⟩,
       ⟨⟨.h, .king⟩, "Player 3"⟩, ⟨⟨.c, .ace⟩, "Player 4"⟩] =
      some ⟨⟨.h, .king⟩, "Player 3"⟩ := by
  decide

/-- C8 counterexample: `Deck.deal` is Python slicing and cannot fail: dealt
2 cards from a 1-card deck, it returns the single remaining card and an empty
deck instead of an `InsufficientCards` error (the result is total and the
dealt portion has length 1 < 2). -/
theorem deal_overdraw_total :
    deal [⟨.h, .two⟩] 2 = ([⟨.h, .two⟩], []) ∧
      (deal [⟨.h, .two⟩] 2).1.length < 2 := by
  decide

/-- C8 amended: `deal n` removes and returns the first `min n |deck|` cards,
the dealt cards followed by the remaining deck reassemble the original deck
(so the relative order of the remaining cards is preserved), and when `n`
exceeds the remaining count it returns all remaining cards and leaves the
deck empty, without error. -/
theorem deal_take_min (cards : List Card) (n : Nat) :
    (deal cards n).1 ++ (deal cards n).2 = cards ∧
      (deal cards n).1.length = min n cards.length ∧
      (cards.length ≤ n → deal cards n = (cards, [])) := by
  refine ⟨List.take_append_drop n cards, List.length_take n cards, fun h => ?_⟩
  unfold deal
  rw [List.take_of_length_le h, List.drop_eq_nil_of_le h]

/-- C8 amended witness: the amended statement evaluated on a 1-card deck
with `n = 2`. -/
theorem deal_take_min_witness :
    (deal [⟨.h, .two⟩] 2).1 ++ (deal [⟨.h, .two⟩] 2).2 = [⟨.h, .two⟩] ∧
      (deal [⟨.h, .two⟩] 2).1.length = min 2 [(⟨.h, .two⟩ : Card)].length ∧
      ([(⟨.h, .two⟩ : Card)].length ≤ 2 → deal [⟨.h, .two⟩] 2 = ([⟨.h, .two⟩], [])) :=
  deal_take_min [⟨.h, .two⟩] 2

/-- C9 counterexample: removing a card with index `-1` from a 2-card hand
does not fail although `-1` lies outside `[0, 2)`: Python's `pop` counts a
negative index from the end, so the last card is removed and returned. -/
theorem playCard_negative_index :
    playCard [⟨.h, .two⟩, ⟨.d, .king⟩] (-1) =
        some (⟨.d, .king⟩, [⟨.h, .two⟩]) ∧
      ¬(0 ≤ (-1 : Int)) := by
  decide

/-- C9 amended: `playCard` fails exactly when the index is `≥ length` or
`< -length`; an index in `[0, length)` removes and returns the card at that
index, the remaining cards being the ones before it followed by the ones
after it in their original order; an index in `[-length, -1]` behaves as
`length + index`. -/
theorem playCard_spec (hand : List Card) (i : Int) :
    (playCard hand i = none ↔
      (hand.length : Int) ≤ i ∨ i < -(hand.length : Int)) ∧
    (∀ k : Nat, k < hand.length → i = k →
      ∃ c, hand[k]? = some c ∧
        playCard hand i = some (c, hand.take k ++ hand.drop (k + 1))) ∧
    (∀ k : Nat, 1 ≤ k → k ≤ hand.length → i = -(k : Int) →
      playCard hand i = playCard hand ((hand.length - k : Nat) : Int)) := by
  refine ⟨?_, ?_, ?_⟩
  · unfold playCard pyIndex
    by_cases hin : 0 ≤ (if i < 0 then i + (hand.length : Int) else i) ∧
        (if i < 0 then i + (hand.length : Int) else i) < (hand.length : Int)
    · rw [if_pos hin]
      have hlt : (if i < 0 then i + (hand.length : Int) else i).toNat < hand.length := by
        rcases hin with ⟨h1, h2⟩
        split at h1 <;> split at h2 <;> omega
      rw [List.getElem?_eq_getElem hlt]
      simp only [reduceCtorEq, false_iff]
      rcases hin with ⟨h1, h2⟩
      split at h1 <;> omega
    · rw [if_neg hin]
      simp only [true_iff]
      rw [Decidable.not_and_iff_or_not] at hin
      rcases hin with h | h <;> split at h <;> omega
  · intro k hk hi
    subst hi
    have hpy : pyIndex hand.length k = k := by unfold pyIndex; split <;> omega
    have htn : (pyIndex hand.length (k : Int)).toNat = k := by rw [hpy]; omega
    refine ⟨hand.get ⟨k, hk⟩, List.getElem?_eq_getElem hk, ?_⟩
    unfold playCard
    rw [htn, hpy, if_pos (by constructor <;> omega),
      List.getElem?_eq_getElem hk]
    simp [List.get_eq_getElem]
  · intro k h1 h2 hi
    subst hi
    have hpy : pyIndex hand.length (-(k : Int)) =
        pyIndex hand.length ((hand.length - k : Nat) : Int) := by
      unfold pyIndex; split <;> split <;> omega
    unfold playCard
    rw [hpy]

/-- C9 amended witness: the amended statement applied to the 2-card hand
`[2H, KD]` at index `-1`, with the hypotheses discharged concretely. -/
theorem playCard_spec_witness :
    playCard [⟨.h, .two⟩, ⟨.d, .king⟩] (-1) =
      playCard [⟨.h, .two⟩, ⟨.d, .king⟩] ((([⟨.h, .two⟩,
        ⟨.d, .king⟩] : List Card).length - 1 : Nat) : Int) :=
  (playCard_spec [⟨.h, .two⟩, ⟨.d, .king⟩] (-1)).2.2 1 (by decide) (by decide) (by decide)

/-- C5: during bidding, a numeric response `v` is recorded as the new running
highest bid exactly when `7 ≤ v ≤ 13` and it strictly exceeds the prior
highest bid if one exists; every other numeric response yields `rejected`
(a re-prompt of the same player), which leaves the bid state unchanged and
is distinct from a pass (the empty response, which yields `passed`). -/
theorem bid_acceptance_rule (highestBid : Option Nat) (v : Nat) :
    (bidInteraction highestBid (some v) =
      if 7 ≤ v ∧ v ≤ 13 ∧ (highestBid = none ∨ highestBid.getD 0 < v) then
        .recorded v
      else
        .rejected) ∧
    bidInteraction highestBid none = .passed ∧
    bidStateAfter highestBid .rejected = highestBid ∧
    bidStateAfter highestBid (.recorded v) = some v := by
  refine ⟨?_, rfl, rfl, rfl⟩
  cases highestBid <;>
    simp only [bidInteraction, getBidFilter, getBidsStep] <;>
    split_ifs <;> simp_all [Option.getD]

/-- C6: for a non-leading player (`i ≠ 0`), if the hand contains a card of
the lead suit then a chosen card passes `getCardsFromPlayer`'s acceptance
test exactly when its suit is the lead suit, and if the hand contains no
lead-suit card then every choice is accepted; a `false` result keeps the
loop on the same player with the hand untouched. -/
theorem followSuit_legality (i : Nat) (leadSuit : Suit) (hand : List Card)
    (card : Card) (hi : i ≠ 0) :
    ((∃ c ∈ hand, c.suit = leadSuit) →
      (cardAccepted i leadSuit hand card = true ↔ card.suit = leadSuit)) ∧
    ((∀ c ∈ hand, c.suit ≠ leadSuit) →
      cardAccepted i leadSuit hand card = true) := by
  unfold cardAccepted
  rw [if_neg hi]
  constructor
  · intro hmem
    rw [if_pos (by simpa [List.any_eq_true] using hmem)]
    simp
  · intro hnone
    rw [if_neg (by simp [List.any_eq_true]; exact hnone)]

/-- C6 witness: the legality test applied to a concrete second player holding
a heart while hearts lead. -/
theorem followSuit_legality_witness :
    ((∃ c ∈ [(⟨.h, .two⟩ : Card), ⟨.c, .ace⟩], c.suit = .h) →
      (cardAccepted 1 .h [⟨.h, .two⟩, ⟨.c, .ace⟩] ⟨.c, .ace⟩ = true ↔
        (⟨.c, .ace⟩ : Card).suit = .h)) ∧
    ((∀ c ∈ [(⟨.h, .two⟩ : Card), ⟨.c, .ace⟩], c.suit ≠ .h) →
      cardAccepted 1 .h [⟨.h, .two⟩, ⟨.c, .ace⟩] ⟨.c, .ace⟩ = true) :=
  followSuit_legality 1 .h [⟨.h, .two⟩, ⟨.c, .ace⟩] ⟨.c, .ace⟩ (by decide)

/-- C4: the end-of-deal update of `TarneebGame.playGame`: writing `n` for the
bid-winning team and `N` for the other team, if team `n`'s trick count
reaches the winning bid then team `n` gains its trick count and team `N` is
unchanged; otherwise team `n` loses the bid value and team `N` gains its own
trick count. -/
theorem playGame_scoring_rule (scores curScores : Fin 2 → Int)
    (bidWinner : String) (highestBid : Int) :
    (applyDealScore scores curScores bidWinner highestBid (teamIndex bidWinner),
     applyDealScore scores curScores bidWinner highestBid (1 - teamIndex bidWinner)) =
    if curScores (teamIndex bidWinner) ≥ highestBid then
      (scores (teamIndex bidWinner) + curScores (teamIndex bidWinner),
       scores (1 - teamIndex bidWinner))
    else
      (scores (teamIndex bidWinner) - highestBid,
       scores (1 - teamIndex bidWinner) + curScores (1 - teamIndex bidWinner)) := by
  have hcase : teamIndex bidWinner = 0 ∨ teamIndex bidWinner = 1 := by
    unfold teamIndex; split
    · exact Or.inl rfl
    · exact Or.inr rfl
  unfold applyDealScore
  rcases hcase with h | h <;> rw [h] <;>
    by_cases hge : curScores (teamIndex bidWinner) ≥ highestBid <;>
      rw [h] at hge <;>
      simp [hge, Function.update_same, Function.update_noteq, show ((1 : Fin 2) - 0) = 1 by decide,
        show ((1 : Fin 2) - 1) = 0 by decide]

/-- Characterisation of `List.max?` on natural numbers, matching Python's
`max` on a nonempty list. -/
lemma natMax?_eq_some {l : List Nat} {m : Nat} :
    l.max? = some m ↔ m ∈ l ∧ ∀ b ∈ l, b ≤ m := by
  apply List.max?_eq_some_iff
  · exact fun a => Nat.le_refl a
  · exact fun a b => max_choice a b
  · exact fun a b c => Nat.max_le

/-- If `p` carries a strictly larger `f`-value than every other element of
`l`, then indexing `l` at the first position where `map f l` attains `f p`
returns `p` — regardless of where `p` sits in `l`. -/
lemma getElem?_indexOf_map_of_strict_max {α : Type} [DecidableEq α]
    (f : α → Nat) (p : α) :
    ∀ (l : List α), p ∈ l → (∀ q ∈ l, q ≠ p → f q < f p) →
      l[(l.map f).indexOf (f p)]? = some p := by
  intro l
  induction l with
  | nil => intro hp; cases hp
  | cons x xs ih =>
    intro hp hlt
    by_cases hx : x = p
    · subst hx
      simp [List.indexOf_cons]
    · have hfx : f x < f p := hlt x (List.mem_cons_self x xs) hx
      have hbeq : (f x == f p) = false := by
        simp only [beq_eq_false_iff_ne, ne_eq]
        omega
      have hp' : p ∈ xs := by
        rcases List.mem_cons.mp hp with h | h
        · exact absurd h.symm hx
        · exact h
      simp only [List.map_cons, List.indexOf_cons, hbeq, cond_false]
      rw [List.getElem?_cons_succ]
      exact ih hp' fun q hq hqp => hlt q (List.mem_cons_of_mem x hq) hqp

/-- If one played card strictly dominates all others in value, the engine
selects it, wherever it sits in the play order. -/
lemma determineWinner_of_strict_max (trump leadSuit : Option Suit)
    (playedCards : List PlayedCard) (p : PlayedCard)
    (hp : p ∈ playedCards)
    (hmax : ∀ q ∈ playedCards, q ≠ p →
      getCardValue trump leadSuit q.card < getCardValue trump leadSuit p.card) :
    determineWinner trump leadSuit playedCards = some p := by
  simp only [determineWinner]
  have hmx : (playedCards.map fun q =>
      getCardValue trump leadSuit q.card).max? =
      some (getCardValue trump leadSuit p.card) := by
    rw [natMax?_eq_some]
    constructor
    · exact List.mem_map_of_mem _ hp
    · intro b hb
      rcases List.mem_map.mp hb with ⟨q, hq, rfl⟩
      by_cases hqp : q = p
      · subst hqp; exact Nat.le_refl _
      · exact Nat.le_of_lt (hmax q hq hqp)
  rw [hmx]
  exact getElem?_indexOf_map_of_strict_max _ p playedCards hp hmax

/-- C3 counterexample: two completed tricks with trump=hearts, lead=diamonds
over the same multiset of played (suit, rank, seat) triples — both led by a
diamond — produce different winners: the (hearts,2) trump and the
(diamonds,3) lead card tie at value 2 (2·1 = 2), and
`cardValues.index(max(cardValues))` takes whichever was played first. -/
theorem winnerOrderDependent :
    ([⟨⟨.d, .two⟩, "P1"⟩, ⟨⟨.h, .two⟩, "P2"⟩, ⟨⟨.d, .three⟩, "P3"⟩,
        ⟨⟨.s, .nine⟩, "P4"⟩] : List PlayedCard).Perm
      [⟨⟨.d, .two⟩, "P1"⟩, ⟨⟨.d, .three⟩, "P3"⟩, ⟨⟨.h, .two⟩, "P2"⟩,
        ⟨⟨.s, .nine⟩, "P4"⟩] ∧
    determineWinner (some .h) (some .d)
      [⟨⟨.d, .two⟩, "P1"⟩, ⟨⟨.h, .two⟩, "P2"⟩, ⟨⟨.d, .three⟩, "P3"⟩,
        ⟨⟨.s, .nine⟩, "P4"⟩] = some ⟨⟨.h, .two⟩, "P2"⟩ ∧
    determineWinner (some .h) (some .d)
      [⟨⟨.d, .two⟩, "P1"⟩, ⟨⟨.d, .three⟩, "P3"⟩, ⟨⟨.h, .two⟩, "P2"⟩,
        ⟨⟨.s, .nine⟩, "P4"⟩] = some ⟨⟨.d, .three⟩, "P3"⟩ := by
  refine ⟨by decide, by decide, by decide⟩

/-- C3 amended: whenever exactly one played card attains the maximal value —
in particular whenever no trump card's doubled rank value equals a lead-suit
card's rank value — the winner is determined by the multiset of plays alone:
any two orderings of the same plays select that same card.  The spec's
instance (trump=h, lead=d, cards {(h,A),(d,K),(c,2),(s,5)}) satisfies this,
so the trump Ace is selected for every play order. -/
theorem winnerUniqueMaxInvariant (trump leadSuit : Option Suit)
    (l₁ l₂ : List PlayedCard) (p : PlayedCard)
    (hperm : l₁.Perm l₂) (hp : p ∈ l₁)
    (hmax : ∀ q ∈ l₁, q ≠ p →
      getCardValue trump leadSuit q.card < getCardValue trump leadSuit p.card) :
    determineWinner trump leadSuit l₁ = some p ∧
      determineWinner trump leadSuit l₂ = some p := by
  refine ⟨determineWinner_of_strict_max _ _ _ p hp hmax, ?_⟩
  exact determineWinner_of_strict_max _ _ _ p (hperm.mem_iff.mp hp)
    fun q hq hqp => hmax q (hperm.mem_iff.mpr hq) hqp

/-- C3 amended witness: the spec's example — trump=h, lead=d over
{(h,A),(d,K),(c,2),(s,5)} — in two different play orders, both selecting the
trump Ace. -/
theorem winnerUniqueMaxInvariantWitness :
    determineWinner (some .h) (some .d)
      [⟨⟨.d, .king⟩, "P1"⟩, ⟨⟨.h, .ace⟩, "P2"⟩, ⟨⟨.c, .two⟩, "P3"⟩,
        ⟨⟨.s, .five⟩, "P4"⟩] = some ⟨⟨.h, .ace⟩, "P2"⟩ ∧
    determineWinner (some .h) (some .d)
      [⟨⟨.d, .king⟩, "P1"⟩, ⟨⟨.s, .five⟩, "P4"⟩, ⟨⟨.c, .two⟩, "P3"⟩,
        ⟨⟨.h, .ace⟩, "P2"⟩] = some ⟨⟨.h, .ace⟩, "P2"⟩ :=
  winnerUniqueMaxInvariant (some .h) (some .d)
    [⟨⟨.d, .king⟩, "P1"⟩, ⟨⟨.h, .ace⟩, "P2"⟩, ⟨⟨.c, .two⟩, "P3"⟩,
      ⟨⟨.s, .five⟩, "P4"⟩]
    [⟨⟨.d, .king⟩, "P1"⟩, ⟨⟨.s, .five⟩, "P4"⟩, ⟨⟨.c, .two⟩, "P3"⟩,
      ⟨⟨.h, .ace⟩, "P2"⟩]
    ⟨⟨.h, .ace⟩, "P2"⟩ (by decide) (by decide) (by decide)

/-- Clearing every hand (`cleanHands`) leaves nothing in the union of the
hands. -/
lemma flatten_cleared (hands : List (List Card)) :
    (hands.map fun _ => ([] : List Card)).flatten = [] := by
  induction hands <;> simp [*]

/-- One dealing pass over the players with a deck at least as long as the
player list never refills: it hands the first `|hands|` deck cards out in
order, appending one to each hand, and keeps the deck remainder. -/
lemma dealPassSpec (fresh : Nat → List Card) (k : Nat) :
    ∀ (hands : List (List Card)) (deck : List Card),
      hands.length ≤ deck.length →
      ∃ hands', dealPass hands deck fresh k =
          some (hands', deck.drop hands.length, k) ∧
        hands'.length = hands.length ∧
        List.Forall₂ (fun h h' => h'.length = h.length + 1) hands hands' ∧
        hands'.flatten.Perm (hands.flatten ++ deck.take hands.length) := by
  intro hands
  induction hands with
  | nil =>
    intro deck _
    exact ⟨[], rfl, rfl, .nil, by simp⟩
  | cons h hs ih =>
    intro deck hlen
    cases deck with
    | nil => simp at hlen
    | cons c d =>
      have hlen' : hs.length ≤ d.length := by
        simpa [Nat.succ_le_succ_iff] using hlen
      obtain ⟨hs', heq, hl, hfa, hperm⟩ := ih d hlen'
      refine ⟨(h ++ [c]) :: hs', ?_, by simp [hl], .cons (by simp) hfa, ?_⟩
      · have hone : dealOne (c :: d) fresh k = some (c, d, k) := rfl
        simp only [dealPass, hone, heq]
        rfl
      · have s1 : ((h ++ [c]) :: hs').flatten = h ++ (c :: hs'.flatten) := by
          simp
        have s2 : (h :: hs).flatten ++ (c :: d).take (hs.length + 1) =
            h ++ (hs.flatten ++ c :: d.take hs.length) := by
          simp [List.take_succ_cons]
        simp only [List.length_cons]
        rw [s1, s2]
        exact ((hperm.cons c).trans List.perm_middle.symm).append_left h

/-- Composing the per-pass hand growth across passes. -/
lemma forall₂_len_add {a b c : List (List Card)} {m n : Nat}
    (h₁ : List.Forall₂ (fun x y => y.length = x.length + m) a b)
    (h₂ : List.Forall₂ (fun x y => y.length = x.length + n) b c) :
    List.Forall₂ (fun x y => y.length = x.length + (m + n)) a c := by
  induction h₁ generalizing c with
  | nil => cases h₂; exact .nil
  | cons hxy _ ih =>
    cases h₂ with
    | cons hyz htl => exact .cons (by omega) (ih htl)

/-- A right-hand member of a `Forall₂` has a related left-hand member. -/
lemma forall₂_mem_right {R : List Card → List Card → Prop} :
    ∀ {a b : List (List Card)}, List.Forall₂ R a b →
      ∀ y ∈ b, ∃ x ∈ a, R x y := by
  intro a b h
  induction h with
  | nil => intro y hy; cases hy
  | cons hxy _ ih =>
    intro y hy
    rcases List.mem_cons.mp hy with rfl | hy'
    · exact ⟨_, List.mem_cons_self _ _, hxy⟩
    · obtain ⟨x, hx, hr⟩ := ih y hy'
      exact ⟨x, List.mem_cons_of_mem _ hx, hr⟩

/-- `n` dealing passes over a deck of exactly `n · |hands|` cards consume the
deck exactly, growing every hand by `n` cards, and the cards across the hands
afterwards are precisely the previous hand cards plus the whole deck. -/
lemma dealRoundsSpec (fresh : Nat → List Card) :
    ∀ (n : Nat) (hands : List (List Card)) (deck : List Card) (k : Nat),
      deck.length = n * hands.length →
      ∃ hands', dealRounds n hands deck fresh k = some (hands', [], k) ∧
        hands'.length = hands.length ∧
        List.Forall₂ (fun h h' => h'.length = h.length + n) hands hands' ∧
        hands'.flatten.Perm (hands.flatten ++ deck) := by
  intro n
  induction n with
  | zero =>
    intro hands deck k hlen
    have hd : deck = [] := List.length_eq_zero.mp (by simpa using hlen)
    subst hd
    exact ⟨hands, rfl, rfl,
      List.forall₂_same.mpr (fun x _ => by omega), by simp⟩
  | succ n ih =>
    intro hands deck k hlen
    have hge : hands.length ≤ deck.length := by
      rw [hlen, Nat.succ_mul]; omega
    obtain ⟨hands₁, heq1, hl1, hfa1, hperm1⟩ := dealPassSpec fresh k hands deck hge
    have hlen1 : (deck.drop hands.length).length = n * hands₁.length := by
      rw [List.length_drop, hl1, hlen, Nat.succ_mul]; omega
    obtain ⟨hands₂, heq2, hl2, hfa2, hperm2⟩ :=
      ih hands₁ (deck.drop hands.length) k hlen1
    refine ⟨hands₂, ?_, by rw [hl2, hl1], ?_, ?_⟩
    · simp only [dealRounds, heq1]
      exact heq2
    · exact (forall₂_len_add hfa1 hfa2).imp fun a b hab => by omega
    · have h3 : List.Perm (hands₁.flatten ++ deck.drop hands.length)
          ((hands.flatten ++ deck.take hands.length) ++ deck.drop hands.length) :=
        hperm1.append_right _
      have h4 : (hands.flatten ++ deck.take hands.length) ++
          deck.drop hands.length = hands.flatten ++ deck := by
        rw [List.append_assoc, List.take_append_drop]
      have h6 : List.Perm (hands₁.flatten ++ deck.drop hands.length)
          (hands.flatten ++ deck) := by
        rw [← h4]; exact h3
      exact hperm2.trans h6

/-- `organizeHand` only reorders a hand. -/
lemma organizeHand_perm (hand : List Card) : (organizeHand hand).Perm hand :=
  List.perm_insertionSort _ hand

/-- Organizing every hand only reorders the union of the hands. -/
lemma flatten_map_organize (l : List (List Card)) :
    ((l.map organizeHand).flatten).Perm l.flatten := by
  induction l with
  | nil => simp
  | cons h t ih => simpa using (organizeHand_perm h).append ih

/-- `dealDeck` on a 4-player table and a 52-card deck succeeds without any
refill, consumes the deck, and distributes exactly its cards, 13 per hand. -/
lemma dealDeck_spec (hands : List (List Card)) (deck : List Card)
    (fresh : Nat → List Card) (k : Nat)
    (h4 : hands.length = 4) (hdl : deck.length = 52) :
    ∃ hands', dealDeck hands deck fresh k = some (hands', [], k) ∧
      hands'.length = 4 ∧ (∀ h ∈ hands', h.length = 13) ∧
      hands'.flatten.Perm deck := by
  have hcl : (hands.map fun _ => ([] : List Card)).length = 4 := by simp [h4]
  have hlen : deck.length = 13 * (hands.map fun _ => ([] : List Card)).length := by
    rw [hcl, hdl]
  obtain ⟨H, heq, hlH, hfa, hperm⟩ := dealRoundsSpec fresh 13 _ deck k hlen
  refine ⟨H.map organizeHand, ?_, by simp [hlH, hcl, h4], ?_, ?_⟩
  · simp only [dealDeck, heq]
  · intro h hm
    rcases List.mem_map.mp hm with ⟨g, hg, rfl⟩
    obtain ⟨x, hx, hr⟩ := forall₂_mem_right hfa g hg
    rcases List.mem_map.mp hx with ⟨_, _, hxe⟩
    rw [← hxe] at hr
    simpa [organizeHand, List.length_insertionSort] using hr
  · have h2 : H.flatten.Perm deck := by
      have := hperm
      rwa [flatten_cleared, List.nil_append] at this
    exact (flatten_map_organize H).trans h2

/-- C10: dealing a fresh shuffled 52-card deck to a 4-player table yields
four hands of 13 cards each whose 52 cards are pairwise distinct
(suit, rank) pairs, with the deck fully consumed. -/
theorem dealDeck_fresh_hands (hands : List (List Card)) (deck : List Card)
    (fresh : Nat → List Card) (k : Nat)
    (h4 : hands.length = 4) (hdeck : deck.Perm fullDeck) :
    ∃ hands', dealDeck hands deck fresh k = some (hands', [], k) ∧
      hands'.length = 4 ∧ (∀ h ∈ hands', h.length = 13) ∧
      hands'.flatten.Nodup := by
  have hdl : deck.length = 52 := by
    rw [hdeck.length_eq]; decide
  obtain ⟨hands', heq, hl, hlens, hperm⟩ := dealDeck_spec hands deck fresh k h4 hdl
  refine ⟨hands', heq, hl, hlens, ?_⟩
  have hfd : fullDeck.Nodup := by decide
  exact ((hperm.trans hdeck).symm).nodup hfd

/-- C10 witness: dealing the unshuffled 52-card deck itself to four empty
hands. -/
theorem dealDeck_fresh_hands_witness :
    ∃ hands', dealDeck [[], [], [], []] fullDeck (fun _ => []) 0 =
        some (hands', [], 0) ∧
      hands'.length = 4 ∧ (∀ h ∈ hands', h.length = 13) ∧
      hands'.flatten.Nodup :=
  dealDeck_fresh_hands [[], [], [], []] fullDeck (fun _ => []) 0 (by decide)
    (List.Perm.refl _)

/-- A dealing pass starting on an empty deck refills once from the next
fresh shuffled deck and then proceeds exactly as a pass over that fresh
deck. -/
lemma dealPassRefill (hands : List (List Card)) (fresh : Nat → List Card)
    (k : Nat) (hne : hands ≠ []) (hfk : fresh k ≠ []) :
    dealPass hands [] fresh k = dealPass hands (fresh k) fresh (k + 1) := by
  cases hands with
  | nil => exact absurd rfl hne
  | cons h hs =>
    cases hfkeq : fresh k with
    | nil => exact absurd hfkeq hfk
    | cons c rest =>
      have h1 : dealOne [] fresh k = some (c, rest, k + 1) := by
        simp only [dealOne, List.isEmpty_nil, if_pos, hfkeq]
      have h2 : dealOne (c :: rest) fresh (k + 1) = some (c, rest, k + 1) := rfl
      simp only [dealPass, h1, h2]

/-- Running the 13 dealing passes from an empty deck equals running them from
the next fresh shuffled deck, consuming one element of the refill supply. -/
lemma dealRoundsRefill (n : Nat) (hands : List (List Card))
    (fresh : Nat → List Card) (k : Nat)
    (hne : hands ≠ []) (hfk : fresh k ≠ []) :
    dealRounds (n + 1) hands [] fresh k =
      dealRounds (n + 1) hands (fresh k) fresh (k + 1) := by
  simp only [dealRounds, dealPassRefill hands fresh k hne hfk]

/-- C7: when all four players pass (`highestBid` is still `none`), the engine
discards the hands and deals again; with the previous deal's deck exhausted,
the redeal draws from the next freshly shuffled 52-card deck, distributing
exactly its cards, 13 to each of the four players — and the match scores
after the restart are the scores before it. -/
theorem noBidRedeal_spec (highestBid : Option Nat) (st : GameSt)
    (fresh : Nat → List Card) (k : Nat)
    (hnone : highestBid = none) (h4 : st.hands.length = 4)
    (hdeck : st.deck = []) (hfresh : (fresh k).Perm fullDeck) :
    ∃ st', noBidRedeal highestBid st fresh k = some (st', k + 1) ∧
      st'.scores = st.scores ∧ st'.hands.length = 4 ∧
      (∀ h ∈ st'.hands, h.length = 13) ∧
      st'.hands.flatten.Perm (fresh k) ∧ st'.deck = [] := by
  have hf52 : (fresh k).length = 52 := by
    rw [hfresh.length_eq]; decide
  have hfne : fresh k ≠ [] := by
    intro h
    rw [h] at hf52
    simp at hf52
  have hclne : (st.hands.map fun _ => ([] : List Card)) ≠ [] := by
    intro h
    have := congrArg List.length h
    simp [h4] at this
  obtain ⟨H, heqR, hlH, hfa, hperm⟩ :=
    dealRoundsSpec fresh 13 (st.hands.map fun _ => []) (fresh k) (k + 1)
      (by simp [h4, hf52])
  have heqRefill : dealRounds 13 (st.hands.map fun _ => []) [] fresh k =
      dealRounds 13 (st.hands.map fun _ => []) (fresh k) fresh (k + 1) :=
    dealRoundsRefill 12 (st.hands.map fun _ => []) fresh k hclne hfne
  have heqDD : dealDeck st.hands [] fresh k =
      some (H.map organizeHand, [], k + 1) := by
    simp only [dealDeck, heqRefill, heqR]
  refine ⟨⟨st.scores, H.map organizeHand, []⟩, ?_, rfl, ?_, ?_, ?_, rfl⟩
  · simp only [noBidRedeal, hnone, if_pos, hdeck, heqDD]
  · simp [hlH, h4]
  · intro h hm
    rcases List.mem_map.mp hm with ⟨g, hg, rfl⟩
    obtain ⟨x, hx, hr⟩ := forall₂_mem_right hfa g hg
    rcases List.mem_map.mp hx with ⟨_, _, hxe⟩
    rw [← hxe] at hr
    simpa [organizeHand, List.length_insertionSort] using hr
  · have h2 : H.flatten.Perm (fresh k) := by
      have := hperm
      rwa [flatten_cleared, List.nil_append] at this
    exact (flatten_map_organize H).trans h2

/-- C7 witness: the no-bid restart applied to a concrete exhausted deal with
the identity shuffle supplying the fresh deck. -/
theorem noBidRedeal_spec_witness :
    ∃ st', noBidRedeal none ⟨fun _ => 0, [[], [], [], []], []⟩
        (fun _ => fullDeck) 0 = some (st', 1) ∧
      st'.scores = (⟨fun _ => 0, [[], [], [], []], []⟩ : GameSt).scores ∧
      st'.hands.length = 4 ∧ (∀ h ∈ st'.hands, h.length = 13) ∧
      st'.hands.flatten.Perm fullDeck ∧ st'.deck = [] :=
  noBidRedeal_spec none ⟨fun _ => 0, [[], [], [], []], []⟩ (fun _ => fullDeck) 0
    rfl (by decide) rfl (List.Perm.refl _)

end Tarneeb
